import Mathlib

/-!
Verification of the pipedreams repository: a shallow embedding of its
data model (tiles, square matrices, pipe dreams, permutations, monomials,
Schubert polynomials) and of the operations the specification describes
(`start`, `mitosis`, reduced-word derivation, reduced-dream generation,
monomial extraction, parsing and rendering), together with theorems
settling the specification's claims.

Machine integers (`usize`) are modelled as `Nat`; fallible vector
indexing (Rust panics) is modelled in the checked variants (`get?`,
`set?`, `start?`, `mitosis?`) by `Option`, where `none` stands for a
panic. The total variants use `getD` with the `Default` tile and a
no-op out-of-range `set`, which agree with Rust semantics on the
in-bounds accesses that the verified preconditions guarantee.
-/

namespace Pipedreams

/-- A tile in a `Dream` (src/dream.rs): `Elbow` or `Cross`. -/
inductive Tile where
  | Elbow
  | Cross
deriving DecidableEq, Repr

/-- `Default for Tile` returns `Elbow` (src/dream.rs). -/
instance : Inhabited Tile := ⟨Tile.Elbow⟩

/-- A square matrix with a flat (row-major) vector representation
(src/matrix.rs). -/
structure SqMat (T : Type) where
  inner : List T
  dim : Nat
deriving DecidableEq, Repr

variable {T : Type}

/-- `SqMat::new`: dimension `dim`, filled with `T::default()`. -/
def SqMat.new (T : Type) [Inhabited T] (dim : Nat) : SqMat T :=
  ⟨List.replicate (dim * dim) default, dim⟩

/-- `Index<(usize, usize)> for SqMat`: flat index `index.1 + index.0 * dim`.
Rust panics out of bounds; this total model returns the default value
there (see `SqMat.get?` for the checked model). -/
def SqMat.get [Inhabited T] (m : SqMat T) (i j : Nat) : T :=
  m.inner.getD (j + i * m.dim) default

/-- `IndexMut<(usize, usize)> for SqMat`: write at flat index
`index.1 + index.0 * dim`. Rust panics out of bounds; this total model
is a no-op there (see `SqMat.set?` for the checked model). -/
def SqMat.set (m : SqMat T) (i j : Nat) (v : T) : SqMat T :=
  ⟨m.inner.set (j + i * m.dim) v, m.dim⟩

/-- Checked read: `none` models the Rust index panic. -/
def SqMat.get? (m : SqMat T) (i j : Nat) : Option T :=
  m.inner[j + i * m.dim]?

/-- Checked write: `none` models the Rust index panic. -/
def SqMat.set? (m : SqMat T) (i j : Nat) (v : T) : Option (SqMat T) :=
  if j + i * m.dim < m.inner.length then some (m.set i j v) else none

/-- An ordinary pipe dream (src/dream.rs): a square grid of tiles. -/
structure Dream where
  tiles : SqMat Tile
deriving DecidableEq, Repr

/-- `Dream::dim`. -/
def Dream.dim (d : Dream) : Nat := d.tiles.dim

/-- `Index<(usize, usize)> for Dream` delegates to the tile matrix. -/
def Dream.get (d : Dream) (i j : Nat) : Tile := d.tiles.get i j

/-- `Dream::from_vec` (via `SqMat::from_vec`; the `v.len() = dim*dim`
assertion is tracked by `Dream.wf`). -/
def Dream.from_vec (dim : Nat) (v : List Tile) : Dream := ⟨⟨v, dim⟩⟩

/-- Well-formedness: the flat vector has exactly `dim * dim` entries,
which `SqMat::from_vec` asserts and every construction path maintains. -/
def Dream.wf (d : Dream) : Prop := d.tiles.inner.length = d.dim * d.dim

instance (d : Dream) : Decidable d.wf := by
  unfold Dream.wf
  infer_instance

/-- `Dream::start`: minimum column of an elbow in row `i`, computed as
the minimum of the elbow columns chained with the sentinel `dim`. -/
def Dream.start (d : Dream) (i : Nat) : Nat :=
  (((List.range d.dim).filter (fun j => d.get i j == Tile.Elbow)) ++ [d.dim]).foldr min d.dim

/-- The body of the `for p in ...` loop of `Dream::mitosis`: clone the
tiles, set `(i, p)` to `Elbow`, then sweep columns `j = 0..p-1` of the
partially modified grid, pushing each cross at `(i, j)` with an elbow
below it down to `(i+1, j)`. -/
def Dream.mitosisChild (d : Dream) (i p : Nat) : Dream :=
  ⟨(List.range p).foldl (fun t j =>
      if t.get i j == Tile.Cross && t.get (i + 1) j == Tile.Elbow then
        (t.set i j Tile.Elbow).set (i + 1) j Tile.Cross
      else t)
    (d.tiles.set i p Tile.Elbow)⟩

/-- `Dream::mitosis`: one offspring per column `p < start i` whose tile
`(i+1, p)` is not a cross, pushed in increasing order of `p`. -/
def Dream.mitosis (d : Dream) (i : Nat) : List Dream :=
  (List.range d.dim).foldl (fun acc p =>
    if p < d.start i ∧ d.get (i + 1) p ≠ Tile.Cross then acc ++ [d.mitosisChild i p]
    else acc) []

/-- `Dream::long`: the seed dream, with a cross at every `(i, j)` with
`i + j < n - 1`, built by the source's double loop of writes. -/
def Dream.long (n : Nat) : Dream :=
  ⟨(List.range n).foldl (fun m i =>
      (List.range n).foldl (fun m j =>
        if i + j < n - 1 then m.set i j Tile.Cross else m) m)
    (SqMat.new Tile n)⟩

/-- A zero-indexed permutation on the naturals (src/perm.rs), as its
backing array. Validity (`inner` sorted is `0..inner.len()`) is carried
as the separate predicate `Perm.Valid`. -/
structure Perm where
  inner : List Nat
deriving DecidableEq, Repr

/-- `Perm::len`. -/
def Perm.len (p : Perm) : Nat := p.inner.length

/-- `Index<usize> for Perm`. Rust panics out of bounds; the total model
returns `0` there, and every verified use is in bounds. -/
def Perm.get (p : Perm) (i : Nat) : Nat := p.inner.getD i 0

/-- `Perm::new`: sort a copy and accept iff the sorted copy is the range
`0..v.len()`. -/
def Perm.new (v : List Nat) : Option Perm :=
  if v.mergeSort (fun a b => decide (a ≤ b)) = List.range v.length then some ⟨v⟩ else none

/-- The validated invariant of `Perm` (src/perm.rs): the backing array
sorted is the range `0..inner.len()`; equivalently (see
`Perm.valid_iff_perm`) the array is a bijection onto that range. -/
def Perm.Valid (p : Perm) : Prop :=
  p.inner.mergeSort (fun a b => decide (a ≤ b)) = List.range p.inner.length

/-- `Perm::lehmer`: entry `i` counts the indices `j > i` with
`p[j] < p[i]`. -/
def Perm.lehmer (p : Perm) : List Nat :=
  (List.range p.len).map (fun i =>
    ((List.range p.len).filter (fun j => decide (i < j) && decide (p.get j < p.get i))).length)

/-- `Perm::long`: the long permutation `n-1, n-2, ..., 0`. -/
def Perm.long (n : Nat) : Perm := ⟨(List.range n).reverse⟩

/-- The identity permutation `0, 1, ..., n-1` (the composition target in
the longest-permutation edge case). -/
def Perm.id (n : Nat) : Perm := ⟨List.range n⟩

/-- `Perm::compose_with` (also `Mul for &Perm`): `inner[i] = self[other[i]]`.
The source asserts equal lengths; every verified use composes
permutations of the same length. -/
def Perm.compose_with (p other : Perm) : Perm :=
  ⟨(List.range p.len).map (fun i => p.get (other.get i))⟩

/-- `lex_first_reduced_word` (src/dream.rs): iterate the Lehmer code in
reverse, appending for reversed position `i` with value `ci` the
descending run `i-1, i-2, ..., i-ci` (the Rust range `(i - ci..i).rev()`). -/
def lex_first_reduced_word (p : Perm) : List Nat :=
  (p.lehmer.reverse.enum).flatMap (fun ic =>
    (List.range' (ic.1 - ic.2) (ic.1 - (ic.1 - ic.2))).reverse)

/-- The free function `mitosis` (src/dream.rs): apply `Dream::mitosis i`
to every dream and concatenate the offspring. -/
def mitosisAll (dreams : List Dream) (i : Nat) : List Dream :=
  dreams.flatMap (fun d => d.mitosis i)

/-- `reduced_dreams` (src/dream.rs): compose with the long permutation,
derive the reduced word, return `[]` if it is empty, otherwise reverse
it and fold mitosis over its letters starting from the seed dream. -/
def reduced_dreams (p : Perm) : List Dream :=
  let q := p.compose_with (Perm.long p.len)
  let reduced := lex_first_reduced_word q
  if reduced = [] then []
  else
    match reduced.reverse with
    | [] => []
    | i0 :: rest => rest.foldl mitosisAll ((Dream.long p.len).mitosis i0)

/-- `ReducedDreams` (src/dream.rs): a permutation with its dream set. -/
structure ReducedDreams where
  perm : Perm
  dreams : List Dream

/-- `ReducedDreams::for_perm`. -/
def ReducedDreams.for_perm (p : Perm) : ReducedDreams := ⟨p, reduced_dreams p⟩

/-- Number of `Cross` tiles in a dream. -/
def crossCount (d : Dream) : Nat := d.tiles.inner.countP (fun t => t == Tile.Cross)

/-- Number of `Cross` tiles in row `i` of a dream. -/
def rowCrossCount (d : Dream) (i : Nat) : Nat :=
  ((List.range d.dim).filter (fun j => d.get i j == Tile.Cross)).length

/-- A monomial (src/poly.rs): pairs `(i, p)` for `x_i^p`. -/
structure Monomial where
  powers : List (Nat × Nat)
deriving DecidableEq, Repr

/-- `From<&Dream> for Monomial`: count crosses per row into a map and
sort the entries. The `HashMap` accumulation followed by the sort is
modelled canonically: one `(row, count)` entry per row with a positive
count, in ascending row order, which is exactly what sorting the
per-row counts yields. -/
def Monomial.ofDream (d : Dream) : Monomial :=
  ⟨(List.range d.dim).filterMap (fun i =>
      if rowCrossCount d i = 0 then none else some (i, rowCrossCount d i))⟩

/-- A Schubert polynomial (src/poly.rs): permutation plus monomials. -/
structure Schubert where
  perm : Perm
  parts : List Monomial

/-- `Schubert::from_dreams`: one monomial per dream, kept only when it
has at least one power, in generation order. -/
def Schubert.from_dreams (rd : ReducedDreams) : Schubert :=
  ⟨rd.perm, rd.dreams.foldl (fun parts d =>
      let mono := Monomial.ofDream d
      if mono.powers = [] then parts else parts ++ [mono]) []⟩

/-- `elem` inside `Display for Monomial`. -/
def Monomial.elem (i p : Nat) : String :=
  match p with
  | 0 => "1"
  | 1 => "x_" ++ toString i
  | _ => "x_" ++ toString i ++ "^" ++ toString p

/-- `Display for Monomial`: factors joined by `*`, or `1` when empty. -/
def Monomial.render (m : Monomial) : String :=
  match m.powers with
  | [] => "1"
  | (i, p) :: rest =>
    rest.foldl (fun acc ip => acc ++ "*" ++ Monomial.elem ip.1 ip.2) (Monomial.elem i p)

/-- `Display for Perm`: `[a, b, c, ...]`, comma-space separated. -/
def Perm.render (p : Perm) : String :=
  "[" ++ String.intercalate ", " (p.inner.map (fun i => toString i)) ++ "]"

/-- The polynomial body of `Display for Schubert`: the monomials joined
by formal addition, or the literal `1` when there are none. -/
def Schubert.body (s : Schubert) : String :=
  match s.parts with
  | [] => "1"
  | first :: rest => rest.foldl (fun acc part => acc ++ " + " ++ part.render) first.render

/-- `Display for Schubert`: label then body. -/
def Schubert.render (s : Schubert) : String :=
  "S_" ++ s.perm.render ++ " = " ++ s.body

/-- `str::trim` on the character level (leading and trailing whitespace
removed), as used by `parse_perm`. -/
def trimChars (cs : List Char) : List Char :=
  ((cs.dropWhile Char.isWhitespace).reverse.dropWhile Char.isWhitespace).reverse

/-- `usize::from_str` restricted to plain digit strings: `none` on an
empty or non-digit token, otherwise the decimal value. -/
def charsToNat (cs : List Char) : Option Nat :=
  if cs ≠ [] ∧ cs.all Char.isDigit then
    some (cs.foldl (fun n c => n * 10 + (c.toNat - 48)) 0)
  else none

/-- `PermParseError` (src/perm.rs). -/
inductive PermParseError where
  | mk
deriving DecidableEq, Repr

/-- The inner `read` of `parse_perm`: trim the input, split on the
delimiter (modelled at the character level for the reference
single-character delimiter), trim each token and parse them all. -/
def read_tokens (s : List Char) (delim : Char) : Option (List Nat) :=
  ((List.splitOn delim (trimChars s)).map trimChars).mapM charsToNat

/-- `parse_perm` (src/perm.rs): read the integers, validate them as a
permutation, and collapse both failure causes into `PermParseError`. -/
def parse_perm (input : String) (delim : Char) : Except PermParseError Perm :=
  match read_tokens input.toList delim with
  | some v =>
    match Perm.new v with
    | some perm => Except.ok perm
    | none => Except.error PermParseError.mk
  | none => Except.error PermParseError.mk

/-- Checked `Dream::start`: performs the row reads of the filter through
checked indexing (`none` models a panic) and otherwise returns `start`. -/
def Dream.start? (d : Dream) (i : Nat) : Option Nat :=
  ((List.range d.dim).mapM (fun j => d.tiles.get? i j)).map (fun _ => d.start i)

/-- Checked mitosis child: the same construction as `Dream.mitosisChild`
with every read and write through checked indexing. -/
def Dream.mitosisChild? (d : Dream) (i p : Nat) : Option Dream := do
  let t0 ← d.tiles.set? i p Tile.Elbow
  let t ← (List.range p).foldlM (fun (t : SqMat Tile) j => do
      let a ← t.get? i j
      let b ← t.get? (i + 1) j
      if a == Tile.Cross && b == Tile.Elbow then do
        let u ← t.set? i j Tile.Elbow
        u.set? (i + 1) j Tile.Cross
      else
        pure t) t0
  pure (Dream.mk t)

/-- Checked `Dream::mitosis`, mirroring Rust's evaluation order: the
short-circuit `j < start && self[(i+1, j)] != Cross` reads `(i+1, j)`
only when `j < start`, and each qualifying `p` builds its child before
the next candidate is tested. `none` models a panic. -/
def Dream.mitosis? (d : Dream) (i : Nat) : Option (List Dream) := do
  let s ← d.start? i
  (List.range d.dim).foldlM (fun (acc : List Dream) p => do
      if p < s then
        let b ← d.tiles.get? (i + 1) p
        if b != Tile.Cross then do
          let c ← d.mitosisChild? i p
          pure (acc ++ [c])
        else
          pure acc
      else
        pure acc) []

/-! ## Basic grid lemmas -/

theorem flatIdx_lt {n i j : Nat} (hi : i < n) (hj : j < n) : j + i * n < n * n := by
  have h1 : j + i * n < (i + 1) * n := by
    rw [Nat.add_mul, Nat.one_mul]; omega
  have h2 : (i + 1) * n ≤ n * n := Nat.mul_le_mul_right n (by omega)
  omega

theorem flatIdx_inj {n i j a b : Nat} (hj : j < n) (hb : b < n)
    (h : j + i * n = b + a * n) : i = a ∧ j = b := by
  have hn : 0 < n := by omega
  have h1 : (j + i * n) % n = j := by
    rw [Nat.add_mul_mod_self_right]
    exact Nat.mod_eq_of_lt hj
  have h2 : (b + a * n) % n = b := by
    rw [Nat.add_mul_mod_self_right]
    exact Nat.mod_eq_of_lt hb
  have hjb : j = b := by rw [← h1, ← h2, h]
  subst hjb
  have : i * n = a * n := by omega
  exact ⟨Nat.eq_of_mul_eq_mul_right hn this, rfl⟩

theorem SqMat.dim_set {T : Type} (m : SqMat T) (i j : Nat) (v : T) :
    (m.set i j v).dim = m.dim := rfl

theorem SqMat.length_set {T : Type} (m : SqMat T) (i j : Nat) (v : T) :
    (m.set i j v).inner.length = m.inner.length := by
  simp [SqMat.set]

theorem SqMat.get_eq_getElem {T : Type} [Inhabited T] (m : SqMat T) (i j : Nat)
    (h : j + i * m.dim < m.inner.length) : m.get i j = m.inner[j + i * m.dim] := by
  rw [SqMat.get, List.getD_eq_getElem _ _ h]

/-- Pointwise description of `set` on a well-formed square matrix. -/
theorem SqMat.get_set {T : Type} [Inhabited T] (m : SqMat T) {i j a b : Nat} (v : T)
    (hwf : m.inner.length = m.dim * m.dim)
    (hi : i < m.dim) (hj : j < m.dim) (ha : a < m.dim) (hb : b < m.dim) :
    (m.set i j v).get a b = if i = a ∧ j = b then v else m.get a b := by
  have hlt : j + i * m.dim < m.inner.length := hwf ▸ flatIdx_lt hi hj
  rw [SqMat.get, SqMat.set, List.getD_eq_getElem?_getD, List.getElem?_set]
  by_cases heq : i = a ∧ j = b
  · obtain ⟨h1, h2⟩ := heq
    subst h1; subst h2
    simp [hlt]
  · have hne : j + i * m.dim ≠ b + a * m.dim := by
      intro hc
      exact heq (flatIdx_inj hj hb hc)
    rw [if_neg hne, ← List.getD_eq_getElem?_getD, SqMat.get]
    simp [heq]

theorem SqMat.get_new {T : Type} [Inhabited T] (n i j : Nat) :
    (SqMat.new T n).get i j = default := by
  rw [SqMat.new, SqMat.get, List.getD_eq_getElem?_getD]
  rw [List.getElem?_replicate]
  split <;> rfl

/-! ## `start` lemmas -/

theorem foldr_min_le_init (l : List Nat) (init : Nat) : l.foldr min init ≤ init := by
  induction l with
  | nil => exact Nat.le_refl _
  | cons a as ih => exact Nat.le_trans (Nat.min_le_right _ _) ih

theorem foldr_min_le_mem {l : List Nat} {x : Nat} (init : Nat) (hx : x ∈ l) :
    l.foldr min init ≤ x := by
  induction l with
  | nil => cases hx
  | cons a as ih =>
    rcases List.mem_cons.1 hx with h | h
    · subst h; exact Nat.min_le_left _ _
    · exact Nat.le_trans (Nat.min_le_right _ _) (ih h)

theorem foldr_min_mem_or (l : List Nat) (init : Nat) :
    l.foldr min init ∈ l ∨ l.foldr min init = init := by
  induction l with
  | nil => exact Or.inr rfl
  | cons a as ih =>
    rcases Nat.le_total a (as.foldr min init) with h | h
    · left
      simp [List.foldr_cons, Nat.min_eq_left h]
    · rw [List.foldr_cons, Nat.min_eq_right h]
      rcases ih with h' | h'
      · exact Or.inl (List.mem_cons_of_mem _ h')
      · exact Or.inr h'

theorem Dream.start_le_dim (d : Dream) (i : Nat) : d.start i ≤ d.dim := by
  rw [Dream.start]
  exact foldr_min_le_mem _ (by simp)

theorem Dream.start_le_of_elbow {d : Dream} {i j : Nat} (hj : j < d.dim)
    (h : d.get i j = Tile.Elbow) : d.start i ≤ j := by
  rw [Dream.start]
  apply foldr_min_le_mem
  apply List.mem_append_left
  rw [List.mem_filter]
  exact ⟨List.mem_range.2 hj, by simp [h]⟩

theorem Dream.cross_of_lt_start {d : Dream} {i j : Nat} (hj : j < d.dim)
    (h : j < d.start i) : d.get i j = Tile.Cross := by
  cases hget : d.get i j with
  | Cross => rfl
  | Elbow => exact absurd (Dream.start_le_of_elbow hj hget) (by omega)

theorem Dream.start_spec (d : Dream) (i : Nat) :
    (d.start i < d.dim ∧ d.get i (d.start i) = Tile.Elbow) ∨
      (d.start i = d.dim ∧ ∀ j < d.dim, d.get i j ≠ Tile.Elbow) := by
  rcases foldr_min_mem_or (((List.range d.dim).filter (fun j => d.get i j == Tile.Elbow)) ++ [d.dim]) d.dim with h | h
  · rw [← Dream.start] at h
    rcases List.mem_append.1 h with h' | h'
    · rw [List.mem_filter, List.mem_range] at h'
      exact Or.inl ⟨h'.1, by simpa using h'.2⟩
    · simp only [List.mem_singleton] at h'
      right
      refine ⟨h', fun j hj hElbow => ?_⟩
      have := Dream.start_le_of_elbow hj hElbow
      omega
  · rw [← Dream.start] at h
    right
    refine ⟨h, fun j hj hElbow => ?_⟩
    have := Dream.start_le_of_elbow hj hElbow
    omega

/-! ## `mitosis` as filter-and-map -/

theorem foldl_push_filter_map {α β : Type} (q : α → Bool) (f : α → β) (l : List α) (acc : List β) :
    l.foldl (fun acc p => if q p then acc ++ [f p] else acc) acc =
      acc ++ (l.filter q).map f := by
  induction l generalizing acc with
  | nil => simp
  | cons a as ih =>
    rw [List.foldl_cons]
    by_cases h : q a
    · rw [if_pos h, ih, List.filter_cons_of_pos h]
      simp
    · rw [if_neg h, ih, List.filter_cons_of_neg h]

theorem Dream.mitosis_eq (d : Dream) (i : Nat) :
    d.mitosis i =
      ((List.range d.dim).filter
          (fun p => decide (p < d.start i) && !(d.get (i + 1) p == Tile.Cross))).map
        (d.mitosisChild i) := by
  rw [Dream.mitosis]
  have hfun : (fun (acc : List Dream) p =>
      if p < d.start i ∧ d.get (i + 1) p ≠ Tile.Cross then acc ++ [d.mitosisChild i p]
      else acc) =
      (fun (acc : List Dream) p =>
        if (decide (p < d.start i) && !(d.get (i + 1) p == Tile.Cross)) then
          acc ++ [d.mitosisChild i p]
        else acc) := by
    funext acc p
    by_cases h1 : p < d.start i <;> by_cases h2 : d.get (i + 1) p = Tile.Cross <;>
      simp [h1, h2]
  rw [hfun, foldl_push_filter_map]
  simp

theorem Dream.mem_mitosis {d c : Dream} {i : Nat} :
    c ∈ d.mitosis i ↔
      ∃ p, p < d.dim ∧ p < d.start i ∧ d.get (i + 1) p ≠ Tile.Cross ∧
        c = d.mitosisChild i p := by
  rw [Dream.mitosis_eq]
  simp only [List.mem_map, List.mem_filter, List.mem_range, Bool.and_eq_true,
    decide_eq_true_eq, Bool.not_eq_true', beq_eq_false_iff_ne]
  constructor
  · rintro ⟨p, ⟨hp, h1, h2⟩, rfl⟩
    exact ⟨p, hp, h1, h2, rfl⟩
  · rintro ⟨p, hp, h1, h2, rfl⟩
    exact ⟨p, ⟨hp, h1, h2⟩, rfl⟩

/-! ## Cross-counting through `set` and `mitosis` -/

theorem crossCount_set (m : SqMat Tile) (i j : Nat) (v : Tile)
    (hwf : m.inner.length = m.dim * m.dim) (hi : i < m.dim) (hj : j < m.dim) :
    crossCount ⟨m.set i j v⟩ + (if m.get i j = Tile.Cross then 1 else 0) =
      crossCount ⟨m⟩ + (if v = Tile.Cross then 1 else 0) := by
  have hlt : j + i * m.dim < m.inner.length := hwf ▸ flatIdx_lt hi hj
  have hget : m.get i j = m.inner[j + i * m.dim] := SqMat.get_eq_getElem m i j hlt
  show (m.set i j v).inner.countP (fun t => t == Tile.Cross) + _ =
    m.inner.countP (fun t => t == Tile.Cross) + _
  rw [SqMat.set]
  simp only []
  rw [List.countP_set _ _ _ _ hlt]
  by_cases hx : m.inner[j + i * m.dim] = Tile.Cross
  · have hpos : 0 < m.inner.countP (fun t => t == Tile.Cross) :=
      List.countP_pos_iff.2 ⟨_, List.getElem_mem hlt, by simp [hx]⟩
    by_cases hv : v = Tile.Cross <;> simp [hget, hx, hv] <;> omega
  · by_cases hv : v = Tile.Cross <;> simp [hget, hx, hv]

/-- One pass of the ladder-move loop preserves the number of crosses,
the vector length and the dimension. -/
theorem crossCount_swapLoop (i : Nat) (js : List Nat) :
    ∀ (t : SqMat Tile), t.inner.length = t.dim * t.dim → i + 1 < t.dim →
      (∀ j ∈ js, j < t.dim) →
      crossCount ⟨js.foldl (fun t j =>
          if t.get i j == Tile.Cross && t.get (i + 1) j == Tile.Elbow then
            (t.set i j Tile.Elbow).set (i + 1) j Tile.Cross
          else t) t⟩ = crossCount ⟨t⟩ ∧
      (js.foldl (fun t j =>
          if t.get i j == Tile.Cross && t.get (i + 1) j == Tile.Elbow then
            (t.set i j Tile.Elbow).set (i + 1) j Tile.Cross
          else t) t).inner.length = t.inner.length ∧
      (js.foldl (fun t j =>
          if t.get i j == Tile.Cross && t.get (i + 1) j == Tile.Elbow then
            (t.set i j Tile.Elbow).set (i + 1) j Tile.Cross
          else t) t).dim = t.dim := by
  induction js with
  | nil => intro t _ _ _; exact ⟨rfl, rfl, rfl⟩
  | cons j js ih =>
    intro t hwf hi hjs
    have hj : j < t.dim := hjs j (List.mem_cons_self _ _)
    have hi' : i < t.dim := by omega
    simp only [List.foldl_cons]
    by_cases hcond : (t.get i j == Tile.Cross && t.get (i + 1) j == Tile.Elbow) = true
    · rw [if_pos hcond]
      simp only [Bool.and_eq_true, beq_iff_eq] at hcond
      obtain ⟨h1, h2⟩ := hcond
      have hulen : (t.set i j Tile.Elbow).inner.length = t.inner.length :=
        SqMat.length_set t i j Tile.Elbow
      have hudim : (t.set i j Tile.Elbow).dim = t.dim := rfl
      have huwf : (t.set i j Tile.Elbow).inner.length =
          (t.set i j Tile.Elbow).dim * (t.set i j Tile.Elbow).dim := by
        rw [hulen, hudim]; exact hwf
      have huget : (t.set i j Tile.Elbow).get (i + 1) j = t.get (i + 1) j := by
        rw [SqMat.get_set t Tile.Elbow hwf hi' hj (by omega) hj]
        have hne : ¬(i = i + 1 ∧ j = j) := by omega
        rw [if_neg hne]
      have hwlen : ((t.set i j Tile.Elbow).set (i + 1) j Tile.Cross).inner.length =
          t.inner.length := by
        rw [SqMat.length_set, hulen]
      have hwdim : ((t.set i j Tile.Elbow).set (i + 1) j Tile.Cross).dim = t.dim := rfl
      have hwwf : ((t.set i j Tile.Elbow).set (i + 1) j Tile.Cross).inner.length =
          ((t.set i j Tile.Elbow).set (i + 1) j Tile.Cross).dim *
            ((t.set i j Tile.Elbow).set (i + 1) j Tile.Cross).dim := by
        rw [hwlen, hwdim]; exact hwf
      have hcnt1 : crossCount ⟨t.set i j Tile.Elbow⟩ + 1 = crossCount ⟨t⟩ := by
        have h := crossCount_set t i j Tile.Elbow hwf hi' hj
        rw [h1] at h
        simp at h
        omega
      have hcnt2 : crossCount ⟨(t.set i j Tile.Elbow).set (i + 1) j Tile.Cross⟩ =
          crossCount ⟨t.set i j Tile.Elbow⟩ + 1 := by
        have h := crossCount_set (t.set i j Tile.Elbow) (i + 1) j Tile.Cross huwf
          (by rw [hudim]; omega) (by rw [hudim]; exact hj)
        rw [huget, h2] at h
        simp at h
        omega
      have hh := ih ((t.set i j Tile.Elbow).set (i + 1) j Tile.Cross) hwwf
        (by rw [hwdim]; exact hi)
        (by intro x hx; rw [hwdim]; exact hjs x (List.mem_cons_of_mem _ hx))
      refine ⟨?_, ?_, ?_⟩
      · rw [hh.1, hcnt2, hcnt1]
      · rw [hh.2.1, hwlen]
      · rw [hh.2.2, hwdim]
    · rw [if_neg hcond]
      exact ih t hwf hi (fun x hx => hjs x (List.mem_cons_of_mem _ hx))

theorem Dream.mitosisChild_crossCount {d : Dream} {i p : Nat}
    (hwf : d.wf) (hi : i + 1 < d.dim) (hp : p < d.dim) (hps : p < d.start i) :
    crossCount (d.mitosisChild i p) + 1 = crossCount d ∧
      (d.mitosisChild i p).wf ∧ (d.mitosisChild i p).dim = d.dim := by
  have hi' : i < d.dim := by omega
  have hcross : d.get i p = Tile.Cross := Dream.cross_of_lt_start hp hps
  have ht0dim : (d.tiles.set i p Tile.Elbow).dim = d.dim := rfl
  have ht0len : (d.tiles.set i p Tile.Elbow).inner.length = d.tiles.inner.length :=
    SqMat.length_set _ _ _ _
  have ht0wf : (d.tiles.set i p Tile.Elbow).inner.length =
      (d.tiles.set i p Tile.Elbow).dim * (d.tiles.set i p Tile.Elbow).dim := by
    rw [ht0len, ht0dim]; exact hwf
  have hcnt0 : crossCount ⟨d.tiles.set i p Tile.Elbow⟩ + 1 = crossCount d := by
    have h := crossCount_set d.tiles i p Tile.Elbow hwf hi' hp
    rw [show d.tiles.get i p = d.get i p from rfl, hcross] at h
    simp at h
    have hd : crossCount ⟨d.tiles⟩ = crossCount d := rfl
    omega
  have hjs : ∀ j ∈ List.range p, j < (d.tiles.set i p Tile.Elbow).dim := by
    intro j hj
    rw [ht0dim]
    have := List.mem_range.1 hj
    omega
  have hloop := crossCount_swapLoop i (List.range p) (d.tiles.set i p Tile.Elbow)
    ht0wf (by rw [ht0dim]; exact hi) hjs
  refine ⟨?_, ?_, ?_⟩
  · show crossCount ⟨_⟩ + 1 = crossCount d
    rw [hloop.1]
    exact hcnt0
  · show ((⟨_⟩ : Dream)).tiles.inner.length = _
    rw [hloop.2.1, ht0len]
    show d.tiles.inner.length = (Dream.mitosisChild d i p).dim * (Dream.mitosisChild d i p).dim
    have hdim : (Dream.mitosisChild d i p).dim = d.dim := by
      show (⟨_⟩ : Dream).tiles.dim = d.dim
      rw [hloop.2.2, ht0dim]
    rw [hdim]
    exact hwf
  · show (⟨_⟩ : Dream).tiles.dim = d.dim
    rw [hloop.2.2, ht0dim]

theorem Dream.mem_mitosis_crossCount {d c : Dream} {i : Nat}
    (hwf : d.wf) (hi : i + 1 < d.dim) (hc : c ∈ d.mitosis i) :
    crossCount c + 1 = crossCount d ∧ c.wf ∧ c.dim = d.dim := by
  obtain ⟨p, hp, hps, _, rfl⟩ := Dream.mem_mitosis.1 hc
  exact Dream.mitosisChild_crossCount hwf hi hp hps

theorem fold_mitosisAll_crossCount {n : Nat} (w : List Nat)
    (hw : ∀ l ∈ w, l + 1 < n) :
    ∀ (S : List Dream) (c k : Nat),
      (∀ d ∈ S, d.wf ∧ d.dim = n ∧ crossCount d + k = c) →
      ∀ d ∈ w.foldl mitosisAll S, d.wf ∧ d.dim = n ∧ crossCount d + (k + w.length) = c := by
  induction w with
  | nil =>
    intro S c k hS d hd
    have := hS d hd
    simpa using this
  | cons l w ih =>
    intro S c k hS d hd
    rw [List.foldl_cons] at hd
    have hstep : ∀ d ∈ mitosisAll S l, d.wf ∧ d.dim = n ∧ crossCount d + (k + 1) = c := by
      intro d hd
      rw [mitosisAll, List.mem_flatMap] at hd
      obtain ⟨parent, hparent, hchild⟩ := hd
      obtain ⟨pwf, pdim, pcnt⟩ := hS parent hparent
      have := Dream.mem_mitosis_crossCount pwf
        (by rw [pdim]; exact hw l (List.mem_cons_self _ _)) hchild
      refine ⟨this.2.1, by rw [this.2.2, pdim], by omega⟩
    have := ih (fun x hx => hw x (List.mem_cons_of_mem _ hx)) (mitosisAll S l) c (k + 1) hstep d hd
    refine ⟨this.1, this.2.1, ?_⟩
    have h := this.2.2
    simp only [List.length_cons] at h ⊢
    omega

/-! ## The seed dream `Dream.long` -/

theorem long_row_aux (n i : Nat) (hi : i < n) (js : List Nat) (hjs : ∀ j ∈ js, j < n) :
    ∀ (m : SqMat Tile), m.dim = n → m.inner.length = n * n →
      (js.foldl (fun m j => if i + j < n - 1 then m.set i j Tile.Cross else m) m).dim = n ∧
      (js.foldl (fun m j => if i + j < n - 1 then m.set i j Tile.Cross else m) m).inner.length = n * n ∧
      ∀ a b, a < n → b < n →
        (js.foldl (fun m j => if i + j < n - 1 then m.set i j Tile.Cross else m) m).get a b =
          if a = i ∧ b ∈ js ∧ i + b < n - 1 then Tile.Cross else m.get a b := by
  induction js with
  | nil =>
    intro m hdim hlen
    refine ⟨hdim, hlen, fun a b _ _ => ?_⟩
    simp
  | cons j js ih =>
    intro m hdim hlen
    have hj : j < n := hjs j (List.mem_cons_self _ _)
    simp only [List.foldl_cons]
    by_cases hcond : i + j < n - 1
    · rw [if_pos hcond]
      have hdim' : (m.set i j Tile.Cross).dim = n := hdim
      have hlen' : (m.set i j Tile.Cross).inner.length = n * n := by
        rw [SqMat.length_set]; exact hlen
      obtain ⟨hd, hl, hget⟩ := ih (fun x hx => hjs x (List.mem_cons_of_mem _ hx))
        (m.set i j Tile.Cross) hdim' hlen'
      refine ⟨hd, hl, fun a b ha hb => ?_⟩
      rw [hget a b ha hb]
      rw [SqMat.get_set m Tile.Cross (by rw [hdim]; exact hlen) (by rw [hdim]; omega)
        (by rw [hdim]; exact hj) (by rw [hdim]; exact ha) (by rw [hdim]; exact hb)]
      by_cases hR : a = i ∧ b ∈ j :: js ∧ i + b < n - 1
      · rw [if_pos hR]
        obtain ⟨h1, h2, h3⟩ := hR
        rcases List.mem_cons.1 h2 with h4 | h4
        · by_cases h5 : a = i ∧ b ∈ js ∧ i + b < n - 1
          · rw [if_pos h5]
          · rw [if_neg h5, if_pos ⟨h1.symm, h4.symm⟩]
        · rw [if_pos ⟨h1, h4, h3⟩]
      · rw [if_neg hR]
        have hL1 : ¬(a = i ∧ b ∈ js ∧ i + b < n - 1) := by
          intro ⟨h1, h2, h3⟩
          exact hR ⟨h1, List.mem_cons_of_mem _ h2, h3⟩
        have hL2 : ¬(i = a ∧ j = b) := by
          intro ⟨h1, h2⟩
          exact hR ⟨h1.symm, h2 ▸ List.mem_cons_self _ _, by omega⟩
        rw [if_neg hL1, if_neg hL2]
    · rw [if_neg hcond]
      obtain ⟨hd, hl, hget⟩ := ih (fun x hx => hjs x (List.mem_cons_of_mem _ hx)) m hdim hlen
      refine ⟨hd, hl, fun a b ha hb => ?_⟩
      rw [hget a b ha hb]
      by_cases hR : a = i ∧ b ∈ j :: js ∧ i + b < n - 1
      · rw [if_pos hR]
        obtain ⟨h1, h2, h3⟩ := hR
        rcases List.mem_cons.1 h2 with h4 | h4
        · exact absurd (show i + j < n - 1 by omega) hcond
        · rw [if_pos ⟨h1, h4, h3⟩]
      · rw [if_neg hR]
        have hL1 : ¬(a = i ∧ b ∈ js ∧ i + b < n - 1) := by
          intro ⟨h1, h2, h3⟩
          exact hR ⟨h1, List.mem_cons_of_mem _ h2, h3⟩
        rw [if_neg hL1]

theorem long_outer_aux (n : Nat) (is : List Nat) (his : ∀ i ∈ is, i < n) :
    ∀ (m : SqMat Tile), m.dim = n → m.inner.length = n * n →
      (is.foldl (fun m i => (List.range n).foldl
          (fun m j => if i + j < n - 1 then m.set i j Tile.Cross else m) m) m).dim = n ∧
      (is.foldl (fun m i => (List.range n).foldl
          (fun m j => if i + j < n - 1 then m.set i j Tile.Cross else m) m) m).inner.length = n * n ∧
      ∀ a b, a < n → b < n →
        (is.foldl (fun m i => (List.range n).foldl
            (fun m j => if i + j < n - 1 then m.set i j Tile.Cross else m) m) m).get a b =
          if a ∈ is ∧ a + b < n - 1 then Tile.Cross else m.get a b := by
  induction is with
  | nil =>
    intro m hdim hlen
    refine ⟨hdim, hlen, fun a b _ _ => ?_⟩
    simp
  | cons i is ih =>
    intro m hdim hlen
    have hi : i < n := his i (List.mem_cons_self _ _)
    simp only [List.foldl_cons]
    obtain ⟨rd, rl, rget⟩ := long_row_aux n i hi (List.range n)
      (fun x hx => List.mem_range.1 hx) m hdim hlen
    obtain ⟨hd, hl, hget⟩ := ih (fun x hx => his x (List.mem_cons_of_mem _ hx)) _ rd rl
    refine ⟨hd, hl, fun a b ha hb => ?_⟩
    rw [hget a b ha hb, rget a b ha hb]
    by_cases hR : a ∈ i :: is ∧ a + b < n - 1
    · rw [if_pos hR]
      obtain ⟨h1, h2⟩ := hR
      rcases List.mem_cons.1 h1 with h3 | h3
      · by_cases h4 : a ∈ is ∧ a + b < n - 1
        · rw [if_pos h4]
        · rw [if_neg h4, if_pos ⟨h3, List.mem_range.2 hb, by omega⟩]
      · rw [if_pos ⟨h3, h2⟩]
    · rw [if_neg hR]
      have hL1 : ¬(a ∈ is ∧ a + b < n - 1) := by
        intro ⟨h1, h2⟩
        exact hR ⟨List.mem_cons_of_mem _ h1, h2⟩
      have hL2 : ¬(a = i ∧ b ∈ List.range n ∧ i + b < n - 1) := by
        intro ⟨h1, _, h3⟩
        exact hR ⟨h1 ▸ List.mem_cons_self _ _, by omega⟩
      rw [if_neg hL1, if_neg hL2]

theorem Dream.long_dim (n : Nat) : (Dream.long n).dim = n := by
  rw [Dream.long]
  show (List.foldl _ (SqMat.new Tile n) (List.range n)).dim = n
  exact (long_outer_aux n (List.range n) (fun x hx => List.mem_range.1 hx)
    (SqMat.new Tile n) rfl (by simp [SqMat.new])).1

theorem Dream.long_wf (n : Nat) : (Dream.long n).wf := by
  show (Dream.long n).tiles.inner.length = (Dream.long n).dim * (Dream.long n).dim
  rw [Dream.long_dim]
  rw [Dream.long]
  exact (long_outer_aux n (List.range n) (fun x hx => List.mem_range.1 hx)
    (SqMat.new Tile n) rfl (by simp [SqMat.new])).2.1

theorem Dream.long_get {n a b : Nat} (ha : a < n) (hb : b < n) :
    (Dream.long n).get a b = if a + b < n - 1 then Tile.Cross else Tile.Elbow := by
  rw [Dream.long]
  show (List.foldl _ (SqMat.new Tile n) (List.range n)).get a b = _
  rw [(long_outer_aux n (List.range n) (fun x hx => List.mem_range.1 hx)
    (SqMat.new Tile n) rfl (by simp [SqMat.new])).2.2 a b ha hb]
  rw [SqMat.get_new]
  have hc : (a ∈ List.range n ∧ a + b < n - 1) ↔ (a + b < n - 1) := by
    simp [List.mem_range, ha]
  rw [if_congr hc rfl rfl]
  split <;> rfl

/-! ## Flat count and per-row counts -/

theorem list_eq_map_getD {α : Type} (l : List α) (d0 : α) :
    l = (List.range l.length).map (fun k => l.getD k d0) := by
  apply List.ext_getElem
  · simp
  · intro k h1 h2
    simp only [List.getElem_map, List.getElem_range]
    rw [List.getD_eq_getElem l d0 h1]

theorem countP_range_mul (g : Nat → Bool) (n m : Nat) :
    (List.range (n * m)).countP g =
      ((List.range n).map (fun i => (List.range m).countP (fun j => g (j + i * m)))).sum := by
  induction n with
  | zero => simp
  | succ n ih =>
    rw [Nat.succ_mul, List.range_add, List.countP_append, ih, List.range_succ]
    simp only [List.map_append, List.sum_append, List.map_cons, List.map_nil]
    rw [List.countP_map]
    have : (g ∘ fun x => n * m + x) = (fun j => g (j + n * m)) := by
      funext x
      simp [Nat.add_comm]
    rw [this]
    simp

theorem countP_flat {α : Type} (l : List α) (d0 : α) (q : α → Bool) (n : Nat)
    (h : l.length = n * n) :
    l.countP q =
      ((List.range n).map (fun i =>
        ((List.range n).filter (fun j => q (l.getD (j + i * n) d0))).length)).sum := by
  conv_lhs => rw [list_eq_map_getD l d0]
  rw [List.countP_map, h, countP_range_mul]
  congr 1
  apply List.map_congr_left
  intro i _
  rw [List.countP_eq_length_filter]
  rfl

theorem crossCount_rows (d : Dream) (h : d.wf) :
    crossCount d = ((List.range d.dim).map (fun i => rowCrossCount d i)).sum := by
  rw [crossCount, countP_flat d.tiles.inner default (fun t => t == Tile.Cross) d.dim h]
  rfl

/-! ## Gauss sums -/

theorem list_range_map_sum (n : Nat) (f : Nat → Nat) :
    ((List.range n).map f).sum = ∑ i ∈ Finset.range n, f i := by
  induction n with
  | zero => simp
  | succ m ih => rw [Finset.sum_range_succ, List.range_succ]; simp [ih]

theorem range_map_sub_sum (n : Nat) :
    ((List.range n).map (fun i => n - 1 - i)).sum = n * (n - 1) / 2 := by
  rw [list_range_map_sum]
  rw [Finset.sum_range_reflect (fun i => i) n]
  have := Finset.sum_range_id_mul_two n
  omega

theorem filter_range_lt_length (n k : Nat) :
    ((List.range n).filter (fun j => decide (j < k))).length = min k n := by
  induction n with
  | zero => simp
  | succ m ih =>
    rw [List.range_succ, List.filter_append, List.length_append, ih]
    by_cases h : m < k <;> simp [h] <;> omega

theorem Dream.long_rowCrossCount {n : Nat} (i : Nat) (hi : i < n) :
    rowCrossCount (Dream.long n) i = n - 1 - i := by
  rw [rowCrossCount, Dream.long_dim]
  have hcong : ∀ j ∈ List.range n,
      ((Dream.long n).get i j == Tile.Cross) = decide (j < n - 1 - i) := by
    intro j hj
    rw [Dream.long_get hi (List.mem_range.1 hj)]
    by_cases h : i + j < n - 1
    · rw [if_pos h]
      have hlt : j < n - 1 - i := by omega
      simp [hlt]
    · rw [if_neg h]
      have hlt : ¬(j < n - 1 - i) := by omega
      simp [hlt]
  rw [List.filter_congr hcong, filter_range_lt_length]
  omega

theorem Dream.long_crossCount (n : Nat) : crossCount (Dream.long n) = n * (n - 1) / 2 := by
  rw [crossCount_rows _ (Dream.long_wf n), Dream.long_dim]
  have : ∀ i ∈ List.range n, rowCrossCount (Dream.long n) i = n - 1 - i := by
    intro i hi
    exact Dream.long_rowCrossCount i (List.mem_range.1 hi)
  rw [List.map_congr_left this, range_map_sub_sum]

/-! ## Lehmer code and reduced word -/

theorem Perm.lehmer_length (p : Perm) : p.lehmer.length = p.len := by
  simp [Perm.lehmer]

theorem Perm.lehmer_getD (p : Perm) (k : Nat) (hk : k < p.len) :
    p.lehmer.getD k 0 =
      ((List.range p.len).filter
        (fun j => decide (k < j) && decide (p.get j < p.get k))).length := by
  rw [Perm.lehmer, List.getD_eq_getElem _ _ (by simpa using hk)]
  simp

theorem filter_range_gt_length (n k : Nat) :
    ((List.range n).filter (fun j => decide (k < j))).length = n - (k + 1) := by
  induction n with
  | zero => simp
  | succ m ih =>
    rw [List.range_succ, List.filter_append, List.length_append, ih]
    by_cases h : k < m <;> simp [h] <;> omega

/-- The Lehmer code entry at position `k` is at most `n - 1 - k`: there
are only that many later positions to invert with. -/
theorem Perm.lehmer_le (p : Perm) (k : Nat) (hk : k < p.len) :
    p.lehmer.getD k 0 ≤ p.len - 1 - k := by
  rw [Perm.lehmer_getD p k hk]
  have h1 : ((List.range p.len).filter
        (fun j => decide (k < j) && decide (p.get j < p.get k))).length ≤
      ((List.range p.len).filter (fun j => decide (k < j))).length := by
    rw [← List.countP_eq_length_filter, ← List.countP_eq_length_filter]
    apply List.countP_mono_left
    intro x _ hx
    simp only [Bool.and_eq_true, decide_eq_true_eq] at hx ⊢
    exact hx.1
  have h2 := filter_range_gt_length p.len k
  omega

/-- Every pair produced by the reversed-enumeration of the Lehmer code
has its value bounded by its reversed position. -/
theorem enum_pair_le (p : Perm) (ic : Nat × Nat) (hic : ic ∈ p.lehmer.reverse.enum) :
    ic.1 < p.len ∧ ic.2 ≤ ic.1 := by
  rw [List.mem_enum_iff_getElem?, List.getElem?_eq_some_iff] at hic
  obtain ⟨hlt, heq⟩ := hic
  have hlen : p.lehmer.reverse.length = p.len := by
    rw [List.length_reverse, Perm.lehmer_length]
  have h1 : ic.1 < p.len := by rw [← hlen]; exact hlt
  refine ⟨h1, ?_⟩
  rw [List.getElem_reverse] at heq
  have hLL : p.lehmer.length = p.len := Perm.lehmer_length p
  have hk : p.lehmer.length - 1 - ic.1 < p.lehmer.length := by omega
  have hle := Perm.lehmer_le p (p.lehmer.length - 1 - ic.1) (by omega)
  rw [List.getD_eq_getElem _ _ hk] at hle
  rw [heq] at hle
  omega

theorem lex_first_reduced_word_length (p : Perm) :
    (lex_first_reduced_word p).length = p.lehmer.sum := by
  rw [lex_first_reduced_word, List.length_flatMap]
  have hcong : ∀ ic ∈ p.lehmer.reverse.enum,
      (List.length ∘ fun ic : Nat × Nat =>
        (List.range' (ic.1 - ic.2) (ic.1 - (ic.1 - ic.2))).reverse) ic = Prod.snd ic := by
    intro ic hic
    have h := enum_pair_le p ic hic
    simp only [Function.comp_apply, List.length_reverse, List.length_range']
    omega
  rw [List.map_congr_left hcong, List.enum_map_snd, List.sum_reverse]

theorem mem_word_lt (p : Perm) (l : Nat) (hl : l ∈ lex_first_reduced_word p) :
    l + 1 < p.len := by
  rw [lex_first_reduced_word, List.mem_flatMap] at hl
  obtain ⟨ic, hic, hmem⟩ := hl
  rw [List.mem_reverse, List.mem_range'] at hmem
  obtain ⟨t, ht, rfl⟩ := hmem
  have hb := enum_pair_le p ic hic
  omega

/-! ## Identity and long permutations -/

theorem Perm.id_len (n : Nat) : (Perm.id n).len = n := by
  simp [Perm.id, Perm.len]

theorem Perm.id_get {n i : Nat} (h : i < n) : (Perm.id n).get i = i := by
  rw [Perm.id, Perm.get]
  simp only []
  rw [List.getD_eq_getElem _ _ (by simpa using h)]
  simp

theorem Perm.long_len (n : Nat) : (Perm.long n).len = n := by
  simp [Perm.long, Perm.len]

theorem Perm.get_of_long {n i : Nat} (h : i < n) : (Perm.long n).get i = n - 1 - i := by
  rw [Perm.long, Perm.get]
  simp only []
  rw [List.getD_eq_getElem _ _ (by simpa using h)]
  rw [List.getElem_reverse]
  simp

theorem Perm.compose_len (p other : Perm) : (p.compose_with other).len = p.len := by
  simp [Perm.compose_with, Perm.len]

theorem Perm.compose_get {p other : Perm} {i : Nat} (hi : i < p.len) :
    (p.compose_with other).get i = p.get (other.get i) := by
  rw [Perm.compose_with, Perm.get]
  simp only []
  rw [List.getD_eq_getElem _ _ (by simpa using hi)]
  simp

theorem compose_long_long (n : Nat) : (Perm.long n).compose_with (Perm.long n) = Perm.id n := by
  rw [Perm.compose_with, Perm.id]
  congr 1
  rw [Perm.long_len]
  have hcong : ∀ i ∈ List.range n, (Perm.long n).get ((Perm.long n).get i) = i := by
    intro i hi
    have hi' := List.mem_range.1 hi
    rw [Perm.get_of_long hi', Perm.get_of_long (by omega)]
    omega
  rw [List.map_congr_left hcong, List.map_id']

theorem lehmer_id (n : Nat) : (Perm.id n).lehmer = (List.range n).map (fun _ => 0) := by
  rw [Perm.lehmer, Perm.id_len]
  apply List.map_congr_left
  intro i hi
  have hfil : ((List.range n).filter
      (fun j => decide (i < j) && decide ((Perm.id n).get j < (Perm.id n).get i))) = [] := by
    rw [List.filter_eq_nil_iff]
    intro j hj
    rw [Perm.id_get (List.mem_range.1 hj), Perm.id_get (List.mem_range.1 hi)]
    simp only [Bool.and_eq_true, decide_eq_true_eq]
    omega
  rw [hfil]
  rfl

theorem word_id (n : Nat) : lex_first_reduced_word (Perm.id n) = [] := by
  rw [lex_first_reduced_word, List.flatMap_eq_nil_iff]
  intro ic hic
  have h2 : ic.2 = 0 := by
    rw [List.mem_enum_iff_getElem?] at hic
    have hmem : ic.2 ∈ (Perm.id n).lehmer.reverse := List.getElem?_mem hic
    rw [List.mem_reverse, lehmer_id, List.mem_map] at hmem
    obtain ⟨_, _, h⟩ := hmem
    exact h.symm
  rw [h2]
  simp

/-! ## Validity -/

theorem mergeSort_nat (v : List Nat) :
    v.mergeSort (fun a b => decide (a ≤ b)) = v.insertionSort (· ≤ ·) :=
  List.mergeSort_eq_insertionSort (r := (· ≤ ·)) v

theorem Perm.valid_iff_perm (p : Perm) : p.Valid ↔ p.inner.Perm (List.range p.len) := by
  rw [Perm.Valid, Perm.len]
  constructor
  · intro h
    have hp := List.mergeSort_perm p.inner (fun a b => decide (a ≤ b))
    rw [h] at hp
    exact hp.symm
  · intro h
    haveI : IsAntisymm Nat (· ≤ ·) := ⟨fun a b => Nat.le_antisymm⟩
    apply List.eq_of_perm_of_sorted (r := (· ≤ ·)) ((List.mergeSort_perm _ _).trans h)
    · rw [mergeSort_nat]
      exact List.sorted_insertionSort _ _
    · exact (List.pairwise_lt_range _).imp Nat.le_of_lt

instance (p : Perm) : Decidable p.Valid :=
  decidable_of_iff (p.inner.insertionSort (· ≤ ·) = List.range p.inner.length)
    (by rw [Perm.Valid, mergeSort_nat])

theorem Perm.new_eq (v : List Nat) :
    Perm.new v =
      if v.insertionSort (· ≤ ·) = List.range v.length then some ⟨v⟩ else none := by
  rw [Perm.new, mergeSort_nat]

theorem Perm.valid_get_lt {p : Perm} (h : p.Valid) {i : Nat} (hi : i < p.len) :
    p.get i < p.len := by
  have hperm := (Perm.valid_iff_perm p).1 h
  have hmem : p.get i ∈ p.inner := by
    rw [Perm.get, List.getD_eq_getElem _ _ hi]
    exact List.getElem_mem hi
  rw [hperm.mem_iff, List.mem_range] at hmem
  exact hmem

theorem Perm.valid_inj {p : Perm} (h : p.Valid) {a b : Nat}
    (ha : a < p.len) (hb : b < p.len) (heq : p.get a = p.get b) : a = b := by
  have hperm := (Perm.valid_iff_perm p).1 h
  have hnd : p.inner.Nodup := hperm.nodup_iff.mpr (List.nodup_range _)
  rw [Perm.get, Perm.get, List.getD_eq_getElem _ _ ha, List.getD_eq_getElem _ _ hb] at heq
  exact hnd.getElem_inj_iff.1 heq

/-! ## Inversions: the Lehmer sum of `p` and of `p ∘ w0` are complementary -/

theorem list_filter_card (P : Nat → Prop) [DecidablePred P] (n : Nat) :
    ((List.range n).filter (fun j => decide (P j))).length =
      (Finset.filter P (Finset.range n)).card := rfl

theorem finset_gauss (n : Nat) : ∑ i ∈ Finset.range n, (n - 1 - i) = n * (n - 1) / 2 := by
  rw [Finset.sum_range_reflect (fun i => i) n]
  have := Finset.sum_range_id_mul_two n
  omega

/-- The Lehmer sum counts the inversion pairs. -/
theorem lehmer_sum_eq_card (p : Perm) :
    p.lehmer.sum =
      (Finset.filter (fun ab : Nat × Nat => ab.1 < ab.2 ∧ p.get ab.2 < p.get ab.1)
        (Finset.range p.len ×ˢ Finset.range p.len)).card := by
  rw [Finset.card_filter, Finset.sum_product]
  rw [Perm.lehmer, list_range_map_sum]
  apply Finset.sum_congr rfl
  intro i _
  have hfn : (fun j => decide (i < j) && decide (p.get j < p.get i)) =
      (fun j => decide (i < j ∧ p.get j < p.get i)) := by
    funext j
    simp
  rw [hfn, list_filter_card (fun j => i < j ∧ p.get j < p.get i) p.len, Finset.card_filter]

theorem all_pairs_card (n : Nat) :
    (Finset.filter (fun ab : Nat × Nat => ab.1 < ab.2)
        (Finset.range n ×ˢ Finset.range n)).card = n * (n - 1) / 2 := by
  rw [Finset.card_filter, Finset.sum_product]
  have hrow : ∀ i ∈ Finset.range n,
      (∑ j ∈ Finset.range n, if (i, j).1 < (i, j).2 then 1 else 0) = n - 1 - i := by
    intro i _
    rw [← Finset.card_filter]
    rw [← list_filter_card (fun j => i < j) n, filter_range_gt_length]
    omega
  rw [Finset.sum_congr rfl hrow, finset_gauss]

/-- The reversal bijection matches inversions of `p ∘ w0` with
non-inversions of `p`. -/
theorem inv_card_compose (p : Perm) :
    (Finset.filter (fun ab : Nat × Nat => ab.1 < ab.2 ∧
        (p.compose_with (Perm.long p.len)).get ab.2 <
          (p.compose_with (Perm.long p.len)).get ab.1)
      (Finset.range p.len ×ˢ Finset.range p.len)).card =
    (Finset.filter (fun ab : Nat × Nat => ab.1 < ab.2 ∧ p.get ab.1 < p.get ab.2)
      (Finset.range p.len ×ˢ Finset.range p.len)).card := by
  have hq : ∀ x < p.len,
      (p.compose_with (Perm.long p.len)).get x = p.get (p.len - 1 - x) := by
    intro x hx
    rw [Perm.compose_get hx, Perm.get_of_long hx]
  apply Finset.card_bij (fun ab _ => (p.len - 1 - ab.2, p.len - 1 - ab.1))
  · intro ab ha
    rw [Finset.mem_filter, Finset.mem_product, Finset.mem_range, Finset.mem_range] at ha
    obtain ⟨⟨h1, h2⟩, h3, h4⟩ := ha
    rw [Finset.mem_filter, Finset.mem_product, Finset.mem_range, Finset.mem_range]
    rw [hq ab.1 h1, hq ab.2 h2] at h4
    exact ⟨⟨by omega, by omega⟩, by omega, h4⟩
  · intro a ha b hb heq
    rw [Finset.mem_filter, Finset.mem_product, Finset.mem_range, Finset.mem_range] at ha hb
    have e1 := congrArg Prod.fst heq
    have e2 := congrArg Prod.snd heq
    simp only [] at e1 e2
    have : a.1 = b.1 ∧ a.2 = b.2 := by
      constructor <;> omega
    exact Prod.ext this.1 this.2
  · intro b hb
    rw [Finset.mem_filter, Finset.mem_product, Finset.mem_range, Finset.mem_range] at hb
    obtain ⟨⟨h1, h2⟩, h3, h4⟩ := hb
    refine ⟨(p.len - 1 - b.2, p.len - 1 - b.1), ?_, ?_⟩
    · rw [Finset.mem_filter, Finset.mem_product, Finset.mem_range, Finset.mem_range]
      refine ⟨⟨by omega, by omega⟩, by omega, ?_⟩
      rw [hq _ (by omega), hq _ (by omega)]
      have e1 : p.len - 1 - (p.len - 1 - b.1) = b.1 := by omega
      have e2 : p.len - 1 - (p.len - 1 - b.2) = b.2 := by omega
      rw [e1, e2]
      exact h4
    · have e1 : p.len - 1 - (p.len - 1 - b.1) = b.1 := by omega
      have e2 : p.len - 1 - (p.len - 1 - b.2) = b.2 := by omega
      exact Prod.ext e1 e2

/-- Inversions and non-inversions of a valid permutation partition the
pairs below the diagonal. -/
theorem inv_compl (p : Perm) (h : p.Valid) :
    (Finset.filter (fun ab : Nat × Nat => ab.1 < ab.2 ∧ p.get ab.2 < p.get ab.1)
        (Finset.range p.len ×ˢ Finset.range p.len)).card +
      (Finset.filter (fun ab : Nat × Nat => ab.1 < ab.2 ∧ p.get ab.1 < p.get ab.2)
        (Finset.range p.len ×ˢ Finset.range p.len)).card =
      p.len * (p.len - 1) / 2 := by
  have hsplit : ∀ Q : Nat × Nat → Prop, ∀ hd : DecidablePred Q,
      Finset.filter (fun ab : Nat × Nat => ab.1 < ab.2 ∧ Q ab)
          (Finset.range p.len ×ˢ Finset.range p.len) =
        Finset.filter Q (Finset.filter (fun ab : Nat × Nat => ab.1 < ab.2)
          (Finset.range p.len ×ˢ Finset.range p.len)) := by
    intro Q hd
    rw [Finset.filter_filter]
  rw [hsplit _ inferInstance, hsplit _ inferInstance]
  have hcong : Finset.filter (fun ab : Nat × Nat => p.get ab.1 < p.get ab.2)
        (Finset.filter (fun ab : Nat × Nat => ab.1 < ab.2)
          (Finset.range p.len ×ˢ Finset.range p.len)) =
      Finset.filter (fun ab : Nat × Nat => ¬ p.get ab.2 < p.get ab.1)
        (Finset.filter (fun ab : Nat × Nat => ab.1 < ab.2)
          (Finset.range p.len ×ˢ Finset.range p.len)) := by
    apply Finset.filter_congr
    intro ab hab
    rw [Finset.mem_filter, Finset.mem_product, Finset.mem_range, Finset.mem_range] at hab
    obtain ⟨⟨h1, h2⟩, h3⟩ := hab
    have hne : p.get ab.1 ≠ p.get ab.2 := by
      intro hc
      have := Perm.valid_inj h h1 h2 hc
      omega
    constructor
    · intro hlt
      omega
    · intro hnlt
      omega
  rw [hcong]
  rw [Finset.filter_card_add_filter_neg_card_eq_card]
  exact all_pairs_card p.len

theorem lehmer_sum_add (p : Perm) (h : p.Valid) :
    p.lehmer.sum + (p.compose_with (Perm.long p.len)).lehmer.sum =
      p.len * (p.len - 1) / 2 := by
  rw [lehmer_sum_eq_card p, lehmer_sum_eq_card (p.compose_with (Perm.long p.len))]
  rw [Perm.compose_len]
  rw [inv_card_compose p]
  exact inv_compl p h

/-! ## The generator invariant -/

theorem reduced_dreams_eq (p : Perm) :
    reduced_dreams p =
      (if lex_first_reduced_word (p.compose_with (Perm.long p.len)) = [] then ([] : List Dream)
       else
        match (lex_first_reduced_word (p.compose_with (Perm.long p.len))).reverse with
        | [] => []
        | i0 :: rest => rest.foldl mitosisAll ((Dream.long p.len).mitosis i0)) := rfl

/-- Every dream the generator emits for a valid permutation is
well-formed, has the permutation's dimension, and carries exactly
`p.lehmer.sum` crosses. -/
theorem reduced_dreams_spec (p : Perm) (h : p.Valid) :
    ∀ d ∈ reduced_dreams p, d.wf ∧ d.dim = p.len ∧ crossCount d = p.lehmer.sum := by
  intro d hd
  rw [reduced_dreams_eq] at hd
  by_cases hw : lex_first_reduced_word (p.compose_with (Perm.long p.len)) = []
  · rw [if_pos hw] at hd
    cases hd
  · rw [if_neg hw] at hd
    rcases hrev : (lex_first_reduced_word (p.compose_with (Perm.long p.len))).reverse with
      _ | ⟨i0, rest⟩
    · rw [List.reverse_eq_nil_iff] at hrev
      exact absurd hrev hw
    · rw [hrev] at hd
      have hqlen : (p.compose_with (Perm.long p.len)).len = p.len := Perm.compose_len _ _
      have hmemword : ∀ x ∈ i0 :: rest,
          x ∈ lex_first_reduced_word (p.compose_with (Perm.long p.len)) := by
        intro x hx
        rw [← List.mem_reverse, hrev]
        exact hx
      have hi0 : i0 + 1 < p.len := by
        have := mem_word_lt _ i0 (hmemword i0 (List.mem_cons_self _ _))
        omega
      have hrest : ∀ x ∈ rest, x + 1 < p.len := by
        intro x hx
        have := mem_word_lt _ x (hmemword x (List.mem_cons_of_mem _ hx))
        omega
      have hseed : ∀ c ∈ (Dream.long p.len).mitosis i0,
          c.wf ∧ c.dim = p.len ∧ crossCount c + 1 = p.len * (p.len - 1) / 2 := by
        intro c hc
        have := Dream.mem_mitosis_crossCount (Dream.long_wf p.len)
          (by rw [Dream.long_dim]; exact hi0) hc
        refine ⟨this.2.1, by rw [this.2.2, Dream.long_dim], ?_⟩
        rw [← Dream.long_crossCount p.len]
        exact this.1
      have hfold := fold_mitosisAll_crossCount rest hrest
        ((Dream.long p.len).mitosis i0) (p.len * (p.len - 1) / 2) 1
        (fun c hc => ⟨(hseed c hc).1, (hseed c hc).2.1, (hseed c hc).2.2⟩) d hd
      refine ⟨hfold.1, hfold.2.1, ?_⟩
      have hcnt := hfold.2.2
      have hwl : (lex_first_reduced_word (p.compose_with (Perm.long p.len))).length =
          1 + rest.length := by
        rw [← List.length_reverse, hrev]
        simp [Nat.add_comm]
      have hsum := lex_first_reduced_word_length (p.compose_with (Perm.long p.len))
      have hadd := lehmer_sum_add p h
      omega

/-! ## Pointwise description of a mitosis child -/

/-- After the ladder pass has swept columns `0..k-1`, every cell is
determined by the parent: the pass reads each column before any write to
it, so the swap condition is evaluated on parent values. -/
theorem mitosisChild_fold_get (d : Dream) (i p : Nat)
    (hwf : d.wf) (hi : i + 1 < d.dim) (hp : p < d.dim) :
    ∀ k, k ≤ p →
      ((List.range k).foldl (fun t j =>
          if t.get i j == Tile.Cross && t.get (i + 1) j == Tile.Elbow then
            (t.set i j Tile.Elbow).set (i + 1) j Tile.Cross
          else t) (d.tiles.set i p Tile.Elbow)).dim = d.dim ∧
      ((List.range k).foldl (fun t j =>
          if t.get i j == Tile.Cross && t.get (i + 1) j == Tile.Elbow then
            (t.set i j Tile.Elbow).set (i + 1) j Tile.Cross
          else t) (d.tiles.set i p Tile.Elbow)).inner.length = d.tiles.inner.length ∧
      ∀ a b, a < d.dim → b < d.dim →
        ((List.range k).foldl (fun t j =>
            if t.get i j == Tile.Cross && t.get (i + 1) j == Tile.Elbow then
              (t.set i j Tile.Elbow).set (i + 1) j Tile.Cross
            else t) (d.tiles.set i p Tile.Elbow)).get a b =
          (if a = i ∧ b = p then Tile.Elbow
           else if b < k ∧ d.get i b = Tile.Cross ∧ d.get (i + 1) b = Tile.Elbow then
             (if a = i then Tile.Elbow else if a = i + 1 then Tile.Cross else d.get a b)
           else d.get a b) := by
  have hi' : i < d.dim := by omega
  intro k
  induction k with
  | zero =>
    intro _
    refine ⟨rfl, SqMat.length_set _ _ _ _, fun a b ha hb => ?_⟩
    simp only [List.range_zero, List.foldl_nil]
    rw [SqMat.get_set d.tiles Tile.Elbow hwf hi' hp ha hb]
    by_cases h : a = i ∧ b = p
    · rw [if_pos ⟨h.1.symm, h.2.symm⟩, if_pos h]
    · have h' : ¬(i = a ∧ p = b) := fun hc => h ⟨hc.1.symm, hc.2.symm⟩
      rw [if_neg h', if_neg h]
      have hnk : ¬(b < 0 ∧ d.get i b = Tile.Cross ∧ d.get (i + 1) b = Tile.Elbow) := by
        intro hc
        omega
      rw [if_neg hnk]
      rfl
  | succ k ih =>
    intro hk
    obtain ⟨hdim, hlen, hget⟩ := ih (by omega)
    have hkd : k < d.dim := by omega
    have hkp : k < p := by omega
    rw [List.range_succ, List.foldl_append, List.foldl_cons, List.foldl_nil]
    have hreadi : ((List.range k).foldl (fun t j =>
        if t.get i j == Tile.Cross && t.get (i + 1) j == Tile.Elbow then
          (t.set i j Tile.Elbow).set (i + 1) j Tile.Cross
        else t) (d.tiles.set i p Tile.Elbow)).get i k = d.get i k := by
      rw [hget i k hi' hkd]
      have h1 : ¬(i = i ∧ k = p) := by omega
      have h2 : ¬(k < k ∧ d.get i k = Tile.Cross ∧ d.get (i + 1) k = Tile.Elbow) := by
        intro hc
        omega
      rw [if_neg h1, if_neg h2]
    have hreadi1 : ((List.range k).foldl (fun t j =>
        if t.get i j == Tile.Cross && t.get (i + 1) j == Tile.Elbow then
          (t.set i j Tile.Elbow).set (i + 1) j Tile.Cross
        else t) (d.tiles.set i p Tile.Elbow)).get (i + 1) k = d.get (i + 1) k := by
      rw [hget (i + 1) k hi hkd]
      have h1 : ¬(i + 1 = i ∧ k = p) := by omega
      have h2 : ¬(k < k ∧ d.get i k = Tile.Cross ∧ d.get (i + 1) k = Tile.Elbow) := by
        intro hc
        omega
      rw [if_neg h1, if_neg h2]
    have hfwf : ((List.range k).foldl (fun t j =>
        if t.get i j == Tile.Cross && t.get (i + 1) j == Tile.Elbow then
          (t.set i j Tile.Elbow).set (i + 1) j Tile.Cross
        else t) (d.tiles.set i p Tile.Elbow)).inner.length =
        ((List.range k).foldl (fun t j =>
          if t.get i j == Tile.Cross && t.get (i + 1) j == Tile.Elbow then
            (t.set i j Tile.Elbow).set (i + 1) j Tile.Cross
          else t) (d.tiles.set i p Tile.Elbow)).dim *
        ((List.range k).foldl (fun t j =>
          if t.get i j == Tile.Cross && t.get (i + 1) j == Tile.Elbow then
            (t.set i j Tile.Elbow).set (i + 1) j Tile.Cross
          else t) (d.tiles.set i p Tile.Elbow)).dim := by
      rw [hdim, hlen]
      exact hwf
    by_cases hcond : d.get i k = Tile.Cross ∧ d.get (i + 1) k = Tile.Elbow
    · have hbool : (((List.range k).foldl (fun t j =>
          if t.get i j == Tile.Cross && t.get (i + 1) j == Tile.Elbow then
            (t.set i j Tile.Elbow).set (i + 1) j Tile.Cross
          else t) (d.tiles.set i p Tile.Elbow)).get i k == Tile.Cross &&
          ((List.range k).foldl (fun t j =>
            if t.get i j == Tile.Cross && t.get (i + 1) j == Tile.Elbow then
              (t.set i j Tile.Elbow).set (i + 1) j Tile.Cross
            else t) (d.tiles.set i p Tile.Elbow)).get (i + 1) k == Tile.Elbow) = true := by
        rw [hreadi, hreadi1]
        simp [hcond.1, hcond.2]
      rw [if_pos hbool]
      refine ⟨hdim, ?_, ?_⟩
      · rw [SqMat.length_set, SqMat.length_set]
        exact hlen
      · intro a b ha hb
        rw [SqMat.get_set _ Tile.Cross (by rw [SqMat.length_set, SqMat.dim_set, hdim, hlen]; exact hwf)
          (by rw [SqMat.dim_set, hdim]; exact hi) (by rw [SqMat.dim_set, hdim]; exact hkd)
          (by rw [SqMat.dim_set, hdim]; exact ha) (by rw [SqMat.dim_set, hdim]; exact hb)]
        rw [SqMat.get_set _ Tile.Elbow hfwf (by rw [hdim]; exact hi') (by rw [hdim]; exact hkd)
          (by rw [hdim]; exact ha) (by rw [hdim]; exact hb)]
        rw [hget a b ha hb]
        obtain ⟨hc1, hc2⟩ := hcond
        clear hget hreadi hreadi1 hfwf hbool hdim hlen ih hwf
        by_cases h3 : b = k
        · subst h3
          by_cases h1 : a = i
          · subst h1
            rw [if_neg (show ¬(a + 1 = a ∧ b = b) from by omega), if_pos ⟨rfl, rfl⟩,
              if_neg (show ¬(a = a ∧ b = p) from by omega),
              if_pos ⟨Nat.lt_succ_self b, hc1, hc2⟩, if_pos rfl]
          · by_cases h2 : a = i + 1
            · subst h2
              rw [if_pos ⟨rfl, rfl⟩, if_neg (show ¬(i + 1 = i ∧ b = p) from by omega),
                if_pos ⟨Nat.lt_succ_self b, hc1, hc2⟩, if_neg (show ¬(i + 1 = i) from by omega),
                if_pos rfl]
            · rw [if_neg (show ¬(i + 1 = a ∧ b = b) from fun hx => h2 hx.1.symm),
                if_neg (show ¬(i = a ∧ b = b) from fun hx => h1 hx.1.symm),
                if_neg (show ¬(a = i ∧ b = p) from fun hx => h1 hx.1),
                if_neg (show ¬(b < b ∧ d.get i b = Tile.Cross ∧ d.get (i + 1) b = Tile.Elbow)
                  from fun hx => absurd hx.1 (Nat.lt_irrefl b)),
                if_neg (show ¬(a = i ∧ b = p) from fun hx => h1 hx.1),
                if_pos ⟨Nat.lt_succ_self b, hc1, hc2⟩, if_neg h1, if_neg h2]
        · rw [if_neg (show ¬(i + 1 = a ∧ k = b) from fun hx => h3 hx.2.symm),
            if_neg (show ¬(i = a ∧ k = b) from fun hx => h3 hx.2.symm)]
          have hiff : (b < k ∧ d.get i b = Tile.Cross ∧ d.get (i + 1) b = Tile.Elbow) ↔
              (b < k + 1 ∧ d.get i b = Tile.Cross ∧ d.get (i + 1) b = Tile.Elbow) :=
            Iff.intro (fun hx => ⟨by omega, hx.2⟩) (fun hx => ⟨by omega, hx.2⟩)
          rw [if_congr Iff.rfl rfl (if_congr hiff rfl rfl)]
    · have hbool : ¬((((List.range k).foldl (fun t j =>
          if t.get i j == Tile.Cross && t.get (i + 1) j == Tile.Elbow then
            (t.set i j Tile.Elbow).set (i + 1) j Tile.Cross
          else t) (d.tiles.set i p Tile.Elbow)).get i k == Tile.Cross &&
          ((List.range k).foldl (fun t j =>
            if t.get i j == Tile.Cross && t.get (i + 1) j == Tile.Elbow then
              (t.set i j Tile.Elbow).set (i + 1) j Tile.Cross
            else t) (d.tiles.set i p Tile.Elbow)).get (i + 1) k == Tile.Elbow) = true) := by
        rw [hreadi, hreadi1]
        intro hc
        simp only [Bool.and_eq_true, beq_iff_eq] at hc
        exact hcond hc
      rw [if_neg hbool]
      refine ⟨hdim, hlen, fun a b ha hb => ?_⟩
      rw [hget a b ha hb]
      clear hget hreadi hreadi1 hfwf hbool hdim hlen ih hwf
      by_cases h3 : b = k
      · subst h3
        have hf1 : ¬(b < b ∧ d.get i b = Tile.Cross ∧ d.get (i + 1) b = Tile.Elbow) :=
          fun hx => absurd hx.1 (Nat.lt_irrefl b)
        have hf2 : ¬(b < b + 1 ∧ d.get i b = Tile.Cross ∧ d.get (i + 1) b = Tile.Elbow) :=
          fun hx => hcond ⟨hx.2.1, hx.2.2⟩
        rw [if_congr Iff.rfl rfl (if_congr (iff_of_false hf1 hf2) rfl rfl)]
      · have hiff : (b < k ∧ d.get i b = Tile.Cross ∧ d.get (i + 1) b = Tile.Elbow) ↔
            (b < k + 1 ∧ d.get i b = Tile.Cross ∧ d.get (i + 1) b = Tile.Elbow) :=
          Iff.intro (fun hx => ⟨by omega, hx.2⟩) (fun hx => ⟨by omega, hx.2⟩)
        rw [if_congr Iff.rfl rfl (if_congr hiff rfl rfl)]

/-- A mitosis child, cell by cell, in terms of the parent: `(i, p)`
becomes an elbow; in every column `j < p` where the parent has a cross
at `(i, j)` over an elbow at `(i+1, j)` the two are swapped; all other
cells keep the parent's value. -/
theorem Dream.mitosisChild_get (d : Dream) (i p : Nat)
    (hwf : d.wf) (hi : i + 1 < d.dim) (hp : p < d.dim) :
    ∀ a b, a < d.dim → b < d.dim →
      (d.mitosisChild i p).get a b =
        (if a = i ∧ b = p then Tile.Elbow
         else if b < p ∧ d.get i b = Tile.Cross ∧ d.get (i + 1) b = Tile.Elbow then
           (if a = i then Tile.Elbow else if a = i + 1 then Tile.Cross else d.get a b)
         else d.get a b) := by
  intro a b ha hb
  exact (mitosisChild_fold_get d i p hwf hi hp p (Nat.le_refl p)).2.2 a b ha hb

/-! ## The checked model: where a last-row mitosis panics and where it
silently returns the empty list -/

theorem mapM_option_some {α β : Type} (f : α → Option β) (l : List α)
    (h : ∀ a ∈ l, (f a).isSome) : ∃ v, l.mapM f = some v := by
  induction l with
  | nil => exact ⟨[], rfl⟩
  | cons a as ih =>
    obtain ⟨b, hb⟩ := Option.isSome_iff_exists.1 (h a (List.mem_cons_self _ _))
    obtain ⟨v, hv⟩ := ih (fun x hx => h x (List.mem_cons_of_mem _ hx))
    refine ⟨b :: v, ?_⟩
    rw [List.mapM_cons, hb, hv]
    rfl

theorem Dream.start?_eq {d : Dream} {i : Nat} (hwf : d.wf) (hi : i < d.dim) :
    d.start? i = some (d.start i) := by
  rw [Dream.start?]
  obtain ⟨v, hv⟩ := mapM_option_some (fun j => d.tiles.get? i j) (List.range d.dim)
    (by
      intro j hj
      unfold SqMat.get?
      have hlt : j + i * d.tiles.dim < d.tiles.inner.length := by
        rw [hwf]
        exact flatIdx_lt hi (List.mem_range.1 hj)
      simp [List.getElem?_eq_getElem hlt])
  rw [hv]
  rfl

theorem Dream.mitosis?_start_zero {d : Dream} {i : Nat} (hwf : d.wf) (hi : i < d.dim)
    (hz : d.start i = 0) : d.mitosis? i = some [] := by
  rw [Dream.mitosis?, Dream.start?_eq hwf hi, hz]
  show (List.range d.dim).foldlM _ ([] : List Dream) = some []
  have hgen : ∀ (l : List Nat) (acc : List Dream),
      l.foldlM (fun (acc : List Dream) p => do
        if p < 0 then
          let b ← d.tiles.get? (i + 1) p
          if b != Tile.Cross then do
            let c ← d.mitosisChild? i p
            pure (acc ++ [c])
          else
            pure acc
        else
          pure acc) acc = some acc := by
    intro l
    induction l with
    | nil => intro acc; rfl
    | cons a as ih =>
      intro acc
      rw [List.foldlM_cons]
      have hstep : (do
          if a < 0 then
            let b ← d.tiles.get? (i + 1) a
            if b != Tile.Cross then do
              let c ← d.mitosisChild? i a
              pure (acc ++ [c])
            else
              pure acc
          else
            pure acc : Option (List Dream)) = some acc := by
        rw [if_neg (Nat.not_lt_zero a)]
        rfl
      rw [hstep]
      exact ih acc
  exact hgen (List.range d.dim) []

theorem Dream.mitosis?_start_pos {d : Dream} {i : Nat} (hwf : d.wf)
    (hieq : i + 1 = d.dim) (hs : 0 < d.start i) : d.mitosis? i = none := by
  have hdim : 0 < d.dim := by omega
  rw [Dream.mitosis?, Dream.start?_eq hwf (by omega)]
  show (List.range d.dim).foldlM _ ([] : List Dream) = none
  obtain ⟨m, hm⟩ : ∃ m, d.dim = m + 1 := ⟨d.dim - 1, by omega⟩
  rw [hm, List.range_succ_eq_map, List.foldlM_cons]
  have hget : d.tiles.get? (i + 1) 0 = none := by
    unfold SqMat.get?
    apply List.getElem?_eq_none
    rw [hwf]
    have : (i + 1) * d.tiles.dim = d.dim * d.dim := by
      rw [hieq]
      rfl
    omega
  have hstep : (do
      if 0 < d.start i then
        let b ← d.tiles.get? (i + 1) 0
        if b != Tile.Cross then do
          let c ← d.mitosisChild? i 0
          pure (([] : List Dream) ++ [c])
        else
          pure ([] : List Dream)
      else
        pure ([] : List Dream) : Option (List Dream)) = none := by
    rw [if_pos hs, hget]
    rfl
  rw [hstep]
  rfl

/-! ## Monomial extraction -/

theorem filterMap_pos_sum (c : Nat → Nat) (l : List Nat) :
    (((l.filterMap (fun i => if c i = 0 then none else some (i, c i))).map
      (fun ip => ip.2)).sum) = (l.map c).sum := by
  induction l with
  | nil => rfl
  | cons a as ih =>
    rw [List.map_cons, List.sum_cons, List.filterMap_cons]
    by_cases h : c a = 0
    · simp only [if_pos h]
      rw [ih, h]
      omega
    · simp only [if_neg h]
      rw [List.map_cons, List.sum_cons, ih]

/-- The exponents of a dream's monomial sum to its total cross count. -/
theorem Monomial.ofDream_sum (d : Dream) (h : d.wf) :
    (((Monomial.ofDream d).powers).map (fun ip => ip.2)).sum = crossCount d := by
  rw [crossCount_rows d h]
  exact filterMap_pos_sum (rowCrossCount d) (List.range d.dim)

/-- The monomial holds exactly the rows with a positive cross count,
with that count as exponent. -/
theorem Monomial.ofDream_mem (d : Dream) (ic : Nat × Nat) :
    ic ∈ (Monomial.ofDream d).powers ↔
      ic.1 < d.dim ∧ 0 < ic.2 ∧ ic.2 = rowCrossCount d ic.1 := by
  show ic ∈ (List.range d.dim).filterMap _ ↔ _
  rw [List.mem_filterMap]
  constructor
  · rintro ⟨a, ha, hfa⟩
    by_cases h : rowCrossCount d a = 0
    · rw [if_pos h] at hfa
      cases hfa
    · rw [if_neg h] at hfa
      have h' : (a, rowCrossCount d a) = ic := by injection hfa
      rw [← h']
      exact ⟨List.mem_range.1 ha, by omega, rfl⟩
  · rintro ⟨h1, h2, h3⟩
    refine ⟨ic.1, List.mem_range.2 h1, ?_⟩
    rw [if_neg (by omega), ← h3]

/-- The monomial's rows are listed in strictly increasing order. -/
theorem Monomial.ofDream_sorted (d : Dream) :
    ((Monomial.ofDream d).powers).Pairwise (fun x y => x.1 < y.1) := by
  show ((List.range d.dim).filterMap _).Pairwise _
  rw [List.pairwise_filterMap]
  apply (List.pairwise_lt_range d.dim).imp
  intro a b hab
  intro x hx y hy
  have hxa : x.1 = a := by
    by_cases h : rowCrossCount d a = 0
    · rw [if_pos h] at hx
      cases hx
    · rw [if_neg h, Option.mem_def, Option.some_inj] at hx
      rw [← hx]
  have hyb : y.1 = b := by
    by_cases h : rowCrossCount d b = 0
    · rw [if_pos h] at hy
      cases hy
    · rw [if_neg h, Option.mem_def, Option.some_inj] at hy
      rw [← hy]
  rw [hxa, hyb]
  exact hab

/-! ## Descending runs -/

theorem run_eq {i ci : Nat} (h : ci ≤ i) :
    (List.range' (i - ci) (i - (i - ci))).reverse =
      (List.range ci).map (fun t => i - 1 - t) := by
  have hlen : i - (i - ci) = ci := by omega
  apply List.ext_getElem
  · simp [hlen]
  · intro t h1 h2
    rw [List.getElem_reverse]
    rw [List.getElem_map, List.getElem_range]
    simp only [List.length_reverse, List.length_range'] at h1
    rw [List.getElem_range']
    simp only [List.length_range']
    omega

/-! ## Claims -/

/-- C1: for every valid permutation `p`, every dream in the list
returned by `reduced_dreams p` (equivalently `ReducedDreams.for_perm p`)
has a number of `Cross` tiles exactly equal to the sum of `p`'s Lehmer
code (its Coxeter length). -/
theorem claim_C1 (p : Perm) (h : p.Valid) :
    (∀ d ∈ reduced_dreams p, crossCount d = p.lehmer.sum) ∧
    (∀ d ∈ (ReducedDreams.for_perm p).dreams, crossCount d = p.lehmer.sum) := by
  have hs := reduced_dreams_spec p h
  exact ⟨fun d hd => (hs d hd).2.2, fun d hd => (hs d hd).2.2⟩

theorem claim_C1_witness :
    Perm.Valid ⟨[1, 0, 2]⟩ ∧
      ((∀ d ∈ reduced_dreams ⟨[1, 0, 2]⟩, crossCount d = (Perm.lehmer ⟨[1, 0, 2]⟩).sum) ∧
       (∀ d ∈ (ReducedDreams.for_perm ⟨[1, 0, 2]⟩).dreams,
          crossCount d = (Perm.lehmer ⟨[1, 0, 2]⟩).sum)) :=
  ⟨by decide, claim_C1 ⟨[1, 0, 2]⟩ (by decide)⟩

/-- C2: for a dream of dimension `n` and a row `i` with `i + 1 < n`,
`mitosis i` returns exactly one child per column `p < start i` whose
tile `(i+1, p)` is not a cross, in increasing column order; `start i` is
the least column with an elbow in row `i` (or `n` when the row has
none); and each child is the parent with `(i, p)` made an elbow followed
by the single left-to-right ladder pass over columns `0..p-1`, all other
cells keeping the parent's values. -/
theorem claim_C2 (d : Dream) (i : Nat) (hwf : d.wf) (hi : i + 1 < d.dim) :
    (d.mitosis i =
      ((List.range d.dim).filter
          (fun p => decide (p < d.start i) && !(d.get (i + 1) p == Tile.Cross))).map
        (d.mitosisChild i)) ∧
    ((d.start i < d.dim ∧ d.get i (d.start i) = Tile.Elbow) ∨
      (d.start i = d.dim ∧ ∀ j < d.dim, d.get i j ≠ Tile.Elbow)) ∧
    (∀ j < d.dim, d.get i j = Tile.Elbow → d.start i ≤ j) ∧
    (∀ p, p < d.dim → p < d.start i →
      ∀ a b, a < d.dim → b < d.dim →
        (d.mitosisChild i p).get a b =
          (if a = i ∧ b = p then Tile.Elbow
           else if b < p ∧ d.get i b = Tile.Cross ∧ d.get (i + 1) b = Tile.Elbow then
             (if a = i then Tile.Elbow else if a = i + 1 then Tile.Cross else d.get a b)
           else d.get a b)) := by
  refine ⟨Dream.mitosis_eq d i, Dream.start_spec d i,
    fun j hj hE => Dream.start_le_of_elbow hj hE, ?_⟩
  intro p hp _ a b ha hb
  exact Dream.mitosisChild_get d i p hwf hi hp a b ha hb

theorem claim_C2_witness :
    (Dream.long 3).wf ∧ 0 + 1 < (Dream.long 3).dim ∧
      (((Dream.long 3).mitosis 0 =
        ((List.range (Dream.long 3).dim).filter
            (fun p => decide (p < (Dream.long 3).start 0) &&
              !((Dream.long 3).get (0 + 1) p == Tile.Cross))).map
          ((Dream.long 3).mitosisChild 0)) ∧
      (((Dream.long 3).start 0 < (Dream.long 3).dim ∧
          (Dream.long 3).get 0 ((Dream.long 3).start 0) = Tile.Elbow) ∨
        ((Dream.long 3).start 0 = (Dream.long 3).dim ∧
          ∀ j < (Dream.long 3).dim, (Dream.long 3).get 0 j ≠ Tile.Elbow)) ∧
      (∀ j < (Dream.long 3).dim, (Dream.long 3).get 0 j = Tile.Elbow →
        (Dream.long 3).start 0 ≤ j) ∧
      (∀ p, p < (Dream.long 3).dim → p < (Dream.long 3).start 0 →
        ∀ a b, a < (Dream.long 3).dim → b < (Dream.long 3).dim →
          ((Dream.long 3).mitosisChild 0 p).get a b =
            (if a = 0 ∧ b = p then Tile.Elbow
             else if b < p ∧ (Dream.long 3).get 0 b = Tile.Cross ∧
                 (Dream.long 3).get (0 + 1) b = Tile.Elbow then
               (if a = 0 then Tile.Elbow else if a = 0 + 1 then Tile.Cross
                else (Dream.long 3).get a b)
             else (Dream.long 3).get a b))) :=
  ⟨by decide, by decide, claim_C2 (Dream.long 3) 0 (by decide) (by decide)⟩

/-- C3: for every `n ≥ 1`, the generator on the longest permutation
composes it with the longest permutation obtaining the identity, derives
an empty reduced word, and returns the empty dream set by the early
exit, even though the longest permutation has a reduced pipe dream (the
seed grid). -/
theorem claim_C3 (n : Nat) (hn : 1 ≤ n) :
    (Perm.long n).compose_with (Perm.long (Perm.long n).len) = Perm.id n ∧
    lex_first_reduced_word ((Perm.long n).compose_with (Perm.long (Perm.long n).len)) = [] ∧
    reduced_dreams (Perm.long n) = [] := by
  have hlen : (Perm.long n).len = n := Perm.long_len n
  have hcomp : (Perm.long n).compose_with (Perm.long (Perm.long n).len) = Perm.id n := by
    rw [hlen]
    exact compose_long_long n
  refine ⟨hcomp, ?_, ?_⟩
  · rw [hcomp, word_id]
  · rw [reduced_dreams_eq, hcomp, word_id, if_pos rfl]

theorem claim_C3_witness :
    Perm.long 2 = ⟨[1, 0]⟩ ∧ 1 ≤ 2 ∧
      ((Perm.long 2).compose_with (Perm.long (Perm.long 2).len) = Perm.id 2 ∧
       lex_first_reduced_word ((Perm.long 2).compose_with (Perm.long (Perm.long 2).len)) = [] ∧
       reduced_dreams (Perm.long 2) = []) :=
  ⟨by decide, by decide, claim_C3 2 (by decide)⟩

/-- C4 counterexample: on the seed dream of dimension 2, the checked
run of `mitosis` on the last row completes without any out-of-bounds
panic and silently returns the empty list, contradicting the claim that
a last-row call never silently produces an empty result. -/
theorem claim_C4_counterexample :
    (Dream.long 2).wf ∧ (Dream.long 2).dim = 2 ∧
      Dream.mitosis? (Dream.long 2) (2 - 1) = some [] := by
  refine ⟨by decide, by decide, by decide⟩

/-- C4 (amended): calling `mitosis` on the last row `n - 1` of a
well-formed dream of positive dimension panics (out-of-bounds index,
modelled as `none`) exactly when `start (n-1) > 0`; when
`start (n-1) = 0` the filter short-circuits before the out-of-bounds
read and the call silently returns the empty list. -/
theorem claim_C4 (d : Dream) (hwf : d.wf) (hpos : 0 < d.dim) :
    (d.start (d.dim - 1) = 0 → d.mitosis? (d.dim - 1) = some []) ∧
    (0 < d.start (d.dim - 1) → d.mitosis? (d.dim - 1) = none) := by
  constructor
  · intro hz
    exact Dream.mitosis?_start_zero hwf (by omega) hz
  · intro hs
    exact Dream.mitosis?_start_pos hwf (by omega) hs

theorem claim_C4_witness :
    (Dream.from_vec 2 [Tile.Cross, Tile.Elbow, Tile.Cross, Tile.Elbow]).wf ∧
      0 < (Dream.from_vec 2 [Tile.Cross, Tile.Elbow, Tile.Cross, Tile.Elbow]).dim ∧
      (((Dream.from_vec 2 [Tile.Cross, Tile.Elbow, Tile.Cross, Tile.Elbow]).start
          ((Dream.from_vec 2 [Tile.Cross, Tile.Elbow, Tile.Cross, Tile.Elbow]).dim - 1) = 0 →
        (Dream.from_vec 2 [Tile.Cross, Tile.Elbow, Tile.Cross, Tile.Elbow]).mitosis?
          ((Dream.from_vec 2 [Tile.Cross, Tile.Elbow, Tile.Cross, Tile.Elbow]).dim - 1) =
            some []) ∧
       (0 < (Dream.from_vec 2 [Tile.Cross, Tile.Elbow, Tile.Cross, Tile.Elbow]).start
          ((Dream.from_vec 2 [Tile.Cross, Tile.Elbow, Tile.Cross, Tile.Elbow]).dim - 1) →
        (Dream.from_vec 2 [Tile.Cross, Tile.Elbow, Tile.Cross, Tile.Elbow]).mitosis?
          ((Dream.from_vec 2 [Tile.Cross, Tile.Elbow, Tile.Cross, Tile.Elbow]).dim - 1) =
            none)) :=
  ⟨by decide, by decide,
    claim_C4 (Dream.from_vec 2 [Tile.Cross, Tile.Elbow, Tile.Cross, Tile.Elbow])
      (by decide) (by decide)⟩

/-- C5: for a valid permutation, the derived reduced word is the
concatenation, over the reversed Lehmer code, of the descending runs
`i-1, i-2, ..., i-ci`; its length is the sum of the code; for the
identity permutation the word is empty. -/
theorem claim_C5 (p : Perm) (h : p.Valid) :
    lex_first_reduced_word p =
      (p.lehmer.reverse.enum).flatMap (fun ic =>
        (List.range ic.2).map (fun t => ic.1 - 1 - t)) ∧
    (lex_first_reduced_word p).length = p.lehmer.sum ∧
    ∀ n, lex_first_reduced_word (Perm.id n) = [] := by
  refine ⟨?_, lex_first_reduced_word_length p, word_id⟩
  rw [lex_first_reduced_word]
  apply List.flatMap_congr
  intro ic hic
  exact run_eq (enum_pair_le p ic hic).2

theorem claim_C5_witness :
    Perm.Valid ⟨[2, 0, 1]⟩ ∧
      (lex_first_reduced_word ⟨[2, 0, 1]⟩ =
        ((Perm.lehmer ⟨[2, 0, 1]⟩).reverse.enum).flatMap (fun ic =>
          (List.range ic.2).map (fun t => ic.1 - 1 - t)) ∧
       (lex_first_reduced_word ⟨[2, 0, 1]⟩).length = (Perm.lehmer ⟨[2, 0, 1]⟩).sum ∧
       ∀ n, lex_first_reduced_word (Perm.id n) = []) :=
  ⟨by decide, claim_C5 ⟨[2, 0, 1]⟩ (by decide)⟩

/-- C6: for the identity permutation of length 3, the generator produces
exactly one dream, the all-elbow grid with zero crosses; the Schubert
assembly keeps no monomial for it and renders the polynomial body as the
literal `1`. -/
theorem claim_C6 :
    reduced_dreams ⟨[0, 1, 2]⟩ = [⟨⟨List.replicate 9 Tile.Elbow, 3⟩⟩] ∧
    crossCount ⟨⟨List.replicate 9 Tile.Elbow, 3⟩⟩ = 0 ∧
    (Schubert.from_dreams (ReducedDreams.for_perm ⟨[0, 1, 2]⟩)).parts = [] ∧
    (Schubert.from_dreams (ReducedDreams.for_perm ⟨[0, 1, 2]⟩)).body = "1" := by
  refine ⟨by decide, by decide, by decide, ?_⟩
  rfl

/-- C7: the monomial of a dream lists exactly the rows with a strictly
positive cross count, with that count as exponent, in strictly
ascending row order, and its exponents sum to the dream's total number
of crosses. -/
theorem claim_C7 (d : Dream) (h : d.wf) :
    (∀ ic : Nat × Nat, ic ∈ (Monomial.ofDream d).powers ↔
      (ic.1 < d.dim ∧ 0 < ic.2 ∧ ic.2 = rowCrossCount d ic.1)) ∧
    ((Monomial.ofDream d).powers).Pairwise (fun x y => x.1 < y.1) ∧
    (((Monomial.ofDream d).powers).map (fun ip => ip.2)).sum = crossCount d :=
  ⟨Monomial.ofDream_mem d, Monomial.ofDream_sorted d, Monomial.ofDream_sum d h⟩

theorem claim_C7_witness :
    (Dream.long 3).wf ∧
      ((∀ ic : Nat × Nat, ic ∈ (Monomial.ofDream (Dream.long 3)).powers ↔
        (ic.1 < (Dream.long 3).dim ∧ 0 < ic.2 ∧ ic.2 = rowCrossCount (Dream.long 3) ic.1)) ∧
       ((Monomial.ofDream (Dream.long 3)).powers).Pairwise (fun x y => x.1 < y.1) ∧
       (((Monomial.ofDream (Dream.long 3)).powers).map (fun ip => ip.2)).sum =
         crossCount (Dream.long 3)) :=
  ⟨by decide, claim_C7 (Dream.long 3) (by decide)⟩

/-- C8: `Perm::new` succeeds exactly when the input array is a bijection
onto `0..n` (equivalently, a permutation of the list `0, 1, ..., n-1`),
and in particular fails on `[0, 2, 1, 1]`. -/
theorem claim_C8 :
    (∀ v : List Nat, (Perm.new v).isSome ↔ v.Perm (List.range v.length)) ∧
    Perm.new [0, 2, 1, 1] = none := by
  constructor
  · intro v
    constructor
    · intro h
      by_cases hc : v.mergeSort (fun a b => decide (a ≤ b)) = List.range v.length
      · exact (Perm.valid_iff_perm ⟨v⟩).1 hc
      · rw [Perm.new, if_neg hc] at h
        exact Bool.noConfusion h
    · intro h
      have hv : v.mergeSort (fun a b => decide (a ≤ b)) = List.range v.length :=
        (Perm.valid_iff_perm ⟨v⟩).2 h
      rw [Perm.new, if_pos hv]
      rfl
  · rw [Perm.new_eq, if_neg (by decide)]

/-- C9: parsing `" 0, 3, 2, 1 "` with delimiter `,` succeeds, and the
resulting permutation renders as `[0, 3, 2, 1]`. -/
theorem claim_C9 :
    parse_perm " 0, 3, 2, 1 " ',' = Except.ok ⟨[0, 3, 2, 1]⟩ ∧
    Perm.render ⟨[0, 3, 2, 1]⟩ = "[0, 3, 2, 1]" := by
  constructor
  · have hr : read_tokens " 0, 3, 2, 1 ".toList ',' = some [0, 3, 2, 1] := by decide
    have hn : Perm.new [0, 3, 2, 1] = some ⟨[0, 3, 2, 1]⟩ := by
      rw [Perm.new_eq, if_pos (by decide)]
    rw [parse_perm, hr]
    show (match Perm.new [0, 3, 2, 1] with
      | some perm => Except.ok perm
      | none => Except.error PermParseError.mk) = Except.ok (⟨[0, 3, 2, 1]⟩ : Perm)
    rw [hn]
  · rfl

/-- C10: for a valid permutation, at every reversed-iteration position
`i` of the reduced-word derivation the code value `ci` satisfies
`ci ≤ i` (the Lehmer entry at original position `k` is at most
`n - 1 - k`), so the subtraction `i - ci` never underflows. -/
theorem claim_C10 (p : Perm) (h : p.Valid) :
    (∀ ic ∈ p.lehmer.reverse.enum, ic.2 ≤ ic.1) ∧
    (∀ k, k < p.len → p.lehmer.getD k 0 ≤ p.len - 1 - k) :=
  ⟨fun ic hic => (enum_pair_le p ic hic).2, fun k hk => Perm.lehmer_le p k hk⟩

theorem claim_C10_witness :
    Perm.Valid ⟨[0, 3, 2, 1]⟩ ∧
      ((∀ ic ∈ (Perm.lehmer ⟨[0, 3, 2, 1]⟩).reverse.enum, ic.2 ≤ ic.1) ∧
       (∀ k, k < Perm.len ⟨[0, 3, 2, 1]⟩ →
         (Perm.lehmer ⟨[0, 3, 2, 1]⟩).getD k 0 ≤ Perm.len ⟨[0, 3, 2, 1]⟩ - 1 - k)) :=
  ⟨by decide, claim_C10 ⟨[0, 3, 2, 1]⟩ (by decide)⟩

end Pipedreams
